import Mathlib

/-!
Shallow embedding of `dict-match` (`src/lib.rs`): a first-match rule engine
with two `Matcher` implementations, `LinearScan` and `LowCardinalityTree`.

Rust `BTreeMap<String, String>` values are embedded as association lists
(`List (String × String)`); a `BTreeMap` always has pairwise-distinct keys, so
theorems about rule maps carry a `Nodup` hypothesis on the key list where the
distinction matters.  Lookup (`BTreeMap::get`) is first-match lookup `alGet`.

Panics in the Rust code (the `unreachable!("no interior leaves")` arm of
`LowCardinalityTree::new` and the `keys[0]` / `keys[1..]` slice indexing in
`Node::find_min_leaf`) are embedded as `none` in an `Option`-valued result, so
that totality of construction and query is itself a provable statement.
-/

/-- An attribute-to-value map: the embedding of `BTreeMap<String, String>`. -/
abbrev Bag := List (String × String)

/-- The embedding of `Rule(pub BTreeMap<String, String>)`. -/
abbrev Rule := Bag

/-- First-match association-list lookup: the embedding of `BTreeMap::get`. -/
def alGet {α : Type} : List (String × α) → String → Option α
  | [], _ => none
  | p :: rest, k => if p.1 = k then some p.2 else alGet rest k

/-- The embedding of the match test in `LinearScan::find`:
`rule.0.iter().all(|(k, v)| input.get(k) == Some(v))`. -/
def rule_matches (input : Bag) (rule : Rule) : Bool :=
  rule.all (fun p => alGet input p.1 == some p.2)

/-- The embedding of `struct LinearScan(Vec<Rule>)`. -/
structure LinearScan where
  rules : List Rule

/-- The embedding of `LinearScan::new`. -/
def LinearScan.new (rules : List Rule) : LinearScan := ⟨rules⟩

/-- The enumerated scan loop of `LinearScan::find`, carrying the index of the
head rule. -/
def findFrom (input : Bag) : Nat → List Rule → Option Nat
  | _, [] => none
  | i, r :: rest => if rule_matches input r then some i else findFrom input (i + 1) rest

/-- The embedding of `LinearScan::find`. -/
def LinearScan.find (m : LinearScan) (input : Bag) : Option Nat :=
  findFrom input 0 m.rules

/-- The embedding of `enum Node`: a leaf holds a rule index, a parent holds an
optional wildcard child and a value-keyed map of explicit children. -/
inductive Node where
  | leaf (idx : Nat)
  | parent (wildcard : Option Node) (explicit : List (String × Node))

/-- The embedding of `Node::empty`. -/
def Node.empty : Node := .parent none []

/-- Lexicographic comparison of character lists by code point.  Rust's `Ord`
for `String` is byte-lexicographic on UTF-8, which coincides with
code-point-lexicographic order. -/
def strLtAux : List Char → List Char → Bool
  | [], [] => false
  | [], _ :: _ => true
  | _ :: _, [] => false
  | a :: as, b :: bs =>
    if a.toNat < b.toNat then true
    else if b.toNat < a.toNat then false
    else strLtAux as bs

/-- Strict order on strings, the order by which `BTreeSet<String>` and
`BTreeMap<String, _>` keep their keys sorted. -/
def strLt (a b : String) : Bool := strLtAux a.data b.data

/-- Sorted-set insertion of one key, the embedding of what `BTreeSet` does for
each inserted key while `LowCardinalityTree::new` collects the key universe. -/
def setInsert (k : String) : List String → List String
  | [] => [k]
  | x :: xs =>
    if strLt k x then k :: x :: xs
    else if strLt x k then x :: setInsert k xs
    else x :: xs

/-- All keys of all rules, in rule order: the embedding of
`rules.iter().flat_map(|r| r.0.keys().cloned())`. -/
def rulesKeys (rules : List Rule) : List String :=
  rules.flatMap (fun r => r.map Prod.fst)

/-- The sorted deduplicated key universe: the embedding of collecting all rule
keys into a `BTreeSet` and back into a `Vec`. -/
def keyUniverse (rules : List Rule) : List String :=
  (rulesKeys rules).foldl (fun acc k => setInsert k acc) []

/-- Update-or-append on a value-keyed child map: the embedding of
`explicit.entry(value).or_insert_with(..)` followed by writing the new child. -/
def alUpsert (l : List (String × Node)) (k : String) (n : Node) : List (String × Node) :=
  match l with
  | [] => [(k, n)]
  | p :: rest => if p.1 = k then (p.1, n) :: rest else p :: alUpsert rest k n

/-- One rule's descent in the construction loop of `LowCardinalityTree::new`:
walk the key universe, descending into the wildcard child when the rule leaves
the key unconstrained and into the explicit child for the rule's value
otherwise (creating `Node::empty` children as needed), then overwrite the node
reached after the last key with `Node::Leaf(idx)`.  The
`unreachable!("no interior leaves")` arm — hitting a leaf while keys remain —
is embedded as `none`. -/
def insertRule (n : Node) (ks : List String) (rule : Rule) (idx : Nat) : Option Node :=
  match ks, n with
  | [], _ => some (.leaf idx)
  | _ :: _, .leaf _ => none
  | k :: rest, .parent w e =>
    match alGet rule k with
    | none =>
      match insertRule (w.getD Node.empty) rest rule idx with
      | none => none
      | some w' => some (.parent (some w') e)
    | some v =>
      match insertRule ((alGet e v).getD Node.empty) rest rule idx with
      | none => none
      | some c' => some (.parent w (alUpsert e v c'))

/-- The whole enumerated construction loop of `LowCardinalityTree::new`,
inserting each rule with its index starting from `i`. -/
def insertAll (n : Node) (ks : List String) : Nat → List Rule → Option Node
  | _, [] => some n
  | i, r :: rest =>
    match insertRule n ks r i with
    | none => none
    | some n' => insertAll n' ks (i + 1) rest

/-- The embedding of `struct LowCardinalityTree`. -/
structure LowCardinalityTree where
  keys : List String
  root : Option Node

/-- The embedding of `LowCardinalityTree::new`.  The outer `Option` is `none`
exactly when the construction loop would hit `unreachable!`. -/
def LowCardinalityTree.new (rules : List Rule) : Option LowCardinalityTree :=
  match keyUniverse rules with
  | [] => some ⟨[], if rules.isEmpty then none else some (.leaf 0)⟩
  | k :: rest =>
    match insertAll Node.empty (k :: rest) 0 rules with
    | none => none
    | some root => some ⟨k :: rest, some root⟩

/-- The embedding of `min_some`. -/
def min_some : Option Nat → Option Nat → Option Nat
  | none, none => none
  | none, some b => some b
  | some a, none => some a
  | some a, some b => some (min a b)

/-- Propagation of a panic through the accumulation `best = min_some(..)`: if
either recursive search panicked the whole query panics, otherwise the two
partial results are combined with `min_some`. -/
def combine : Option (Option Nat) → Option (Option Nat) → Option (Option Nat)
  | some a, some b => some (min_some a b)
  | _, _ => none

/-- The embedding of `Node::find_min_leaf`.  A leaf yields its index; a parent
searches the wildcard child, and the explicit child for the input's value at
the current key, combining the two with `min_some`.  The result is `none`
exactly when the Rust code would panic indexing `keys[0]` (or slicing
`keys[1..]`) at a parent node with no keys left. -/
def find_min_leaf (n : Node) (ks : List String) (input : Bag) : Option (Option Nat) :=
  match ks, n with
  | _, .leaf idx => some (some idx)
  | [], .parent _ _ => none
  | k :: rest, .parent w e =>
    combine
      (match w with
        | none => some none
        | some c => find_min_leaf c rest input)
      (match alGet input k with
        | none => some none
        | some v =>
          match alGet e v with
          | none => some none
          | some c => find_min_leaf c rest input)

/-- The embedding of `LowCardinalityTree::find`: `self.root.as_ref()?` turns a
missing root into a no-match answer. -/
def LowCardinalityTree.find (t : LowCardinalityTree) (input : Bag) : Option (Option Nat) :=
  match t.root with
  | none => some none
  | some r => find_min_leaf r t.keys input

/-- The path test an input must pass to reach the leaf of a given rule: at
every key of `ks` that the rule constrains, the input carries the rule's
value.  Keys the rule leaves unconstrained impose nothing, matching the
unconditional wildcard descent of `Node::find_min_leaf`. -/
def follows (ks : List String) (rule : Rule) (input : Bag) : Bool :=
  ks.all fun k =>
    match alGet rule k with
    | none => true
    | some v => alGet input k == some v

/-- Shape invariant of the index: at depth budget `d`, a node is a leaf
exactly when `d = 0`, so every leaf of a well-formed root sits at depth
exactly `K` and every shallower node is a parent. -/
def WF : Nat → Node → Bool
  | 0, .leaf _ => true
  | 0, .parent _ _ => false
  | _ + 1, .leaf _ => false
  | m + 1, .parent w e =>
    ((w.map fun c => WF m c).getD true) && e.all (fun p => WF m p.2)

/-- Precondition under which one rule insertion is total: the node is either
well-formed at the given depth or a freshly created `Node.empty` (the latter
only ever occurring when no keys remain to be consumed above it). -/
def preNode (d : Nat) (n : Node) : Prop := WF d n = true ∨ n = Node.empty

example :
    (LinearScan.new [[("a", "1"), ("b", "2")], [("a", "1")], [("b", "2")]]).find
      [("a", "1"), ("b", "2"), ("c", "3")] = some 0 := by decide

example :
    (LinearScan.new [[("a", "1"), ("b", "2")], [("a", "1")], [("b", "2")]]).find
      [("a", "1"), ("b", "garbage"), ("c", "3")] = some 1 := by decide

example :
    (LinearScan.new [[("a", "1"), ("b", "2")], [("a", "1")], [("b", "2")]]).find
      [("a", "garbage"), ("b", "garbage"), ("c", "3")] = none := by decide

example :
    (LowCardinalityTree.new [[("a", "1"), ("b", "2")], [("a", "1")], [("b", "2")]]).map
      (fun t => t.find [("a", "1"), ("b", "2"), ("c", "3")]) = some (some (some 0)) := by decide

example :
    (LowCardinalityTree.new [[("a", "1"), ("b", "2")], [("a", "1")], [("b", "2")]]).map
      (fun t => t.find [("a", "garbage"), ("b", "2"), ("c", "3")]) = some (some (some 2)) := by
  decide

example :
    (LowCardinalityTree.new [[("a", "1"), ("b", "2")], [("a", "1")], [("b", "2")]]).map
      (fun t => t.find [("a", "garbage"), ("b", "garbage"), ("c", "3")]) = some (some none) := by
  decide

theorem char_eq_of_toNat_eq {a b : Char} (h : a.toNat = b.toNat) : a = b :=
  Char.eq_of_val_eq (UInt32.ext h)

theorem strLtAux_antisymm (as : List Char) :
    ∀ bs, strLtAux as bs = false → strLtAux bs as = false → as = bs := by
  induction as with
  | nil =>
    intro bs
    cases bs with
    | nil => intro _ _; rfl
    | cons b bs' => intro h1 _; simp [strLtAux] at h1
  | cons a as' ih =>
    intro bs
    cases bs with
    | nil => intro _ h2; simp [strLtAux] at h2
    | cons b bs' =>
      intro h1 h2
      rcases Nat.lt_trichotomy a.toNat b.toNat with hlt | heq | hgt
      · simp [strLtAux, hlt] at h1
      · have hab : a = b := char_eq_of_toNat_eq heq
        have hnl : ¬ a.toNat < b.toNat := by omega
        have hnl2 : ¬ b.toNat < a.toNat := by omega
        simp [strLtAux, hnl, hnl2] at h1 h2
        rw [hab, ih bs' h1 h2]
      · simp [strLtAux, hgt, Nat.lt_asymm hgt] at h2

theorem strLt_antisymm {a b : String} (h1 : strLt a b = false) (h2 : strLt b a = false) :
    a = b :=
  String.ext (strLtAux_antisymm a.data b.data h1 h2)

theorem mem_setInsert_self (k : String) (l : List String) : k ∈ setInsert k l := by
  induction l with
  | nil => simp [setInsert]
  | cons x xs ih =>
    by_cases h1 : strLt k x = true
    · simp [setInsert, h1]
    · simp only [Bool.not_eq_true] at h1
      by_cases h2 : strLt x k = true
      · simp [setInsert, h1, h2, List.mem_cons, ih]
      · simp only [Bool.not_eq_true] at h2
        have hkx : k = x := strLt_antisymm h1 h2
        simp only [setInsert, h1, h2]
        simp [hkx]

theorem mem_setInsert_of_mem {a : String} (k : String) {l : List String} (h : a ∈ l) :
    a ∈ setInsert k l := by
  induction l with
  | nil => simp at h
  | cons x xs ih =>
    rcases List.mem_cons.mp h with rfl | hmem
    · by_cases h1 : strLt k a = true
      · simp [setInsert, h1]
      · simp only [Bool.not_eq_true] at h1
        by_cases h2 : strLt a k = true
        · simp [setInsert, h1, h2]
        · simp only [Bool.not_eq_true] at h2
          simp [setInsert, h1, h2]
    · by_cases h1 : strLt k x = true
      · simp [setInsert, h1, List.mem_cons, hmem]
      · simp only [Bool.not_eq_true] at h1
        by_cases h2 : strLt x k = true
        · simp [setInsert, h1, h2, List.mem_cons, ih hmem]
        · simp only [Bool.not_eq_true] at h2
          simp [setInsert, h1, h2, List.mem_cons, hmem]

theorem setInsert_ne_nil (k : String) (l : List String) : setInsert k l ≠ [] := by
  cases l with
  | nil => simp [setInsert]
  | cons x xs =>
    simp only [setInsert]
    split
    · simp
    · split <;> simp

theorem mem_foldl_setInsert_acc (l : List String) :
    ∀ acc k, k ∈ acc → k ∈ l.foldl (fun a x => setInsert x a) acc := by
  induction l with
  | nil => intro acc k h; simpa using h
  | cons x xs ih =>
    intro acc k h
    exact ih (setInsert x acc) k (mem_setInsert_of_mem x h)

theorem mem_foldl_setInsert (l : List String) :
    ∀ acc k, k ∈ l → k ∈ l.foldl (fun a x => setInsert x a) acc := by
  induction l with
  | nil => intro acc k h; simp at h
  | cons x xs ih =>
    intro acc k h
    rcases List.mem_cons.mp h with rfl | hmem
    · exact mem_foldl_setInsert_acc xs (setInsert k acc) k (mem_setInsert_self k acc)
    · exact ih (setInsert x acc) k hmem

theorem foldl_setInsert_ne_nil (l : List String) :
    ∀ acc, acc ≠ [] → l.foldl (fun a x => setInsert x a) acc ≠ [] := by
  induction l with
  | nil => intro acc h; simpa using h
  | cons x xs ih =>
    intro acc _
    exact ih (setInsert x acc) (setInsert_ne_nil x acc)

theorem mem_keyUniverse {rules : List Rule} {k : String} (h : k ∈ rulesKeys rules) :
    k ∈ keyUniverse rules :=
  mem_foldl_setInsert (rulesKeys rules) [] k h

theorem rule_key_mem_keyUniverse {rules : List Rule} {r : Rule} {k : String}
    (hr : r ∈ rules) (hk : k ∈ r.map Prod.fst) : k ∈ keyUniverse rules :=
  mem_keyUniverse (List.mem_flatMap.mpr ⟨r, hr, hk⟩)

theorem rule_eq_nil_of_keyUniverse_nil {rules : List Rule}
    (h : keyUniverse rules = []) : ∀ r ∈ rules, r = [] := by
  intro r hr
  cases r with
  | nil => rfl
  | cons p ps =>
    exfalso
    have : p.1 ∈ keyUniverse rules :=
      rule_key_mem_keyUniverse hr (by simp)
    rw [h] at this
    simp at this

theorem alGet_mem {α : Type} {l : List (String × α)} {k : String} {v : α}
    (h : alGet l k = some v) : (k, v) ∈ l := by
  induction l with
  | nil => simp [alGet] at h
  | cons p rest ih =>
    obtain ⟨pk, pv⟩ := p
    by_cases hk : pk = k
    · subst hk
      simp [alGet] at h
      simp [h]
    · simp [alGet, hk] at h
      exact List.mem_cons_of_mem _ (ih h)

theorem alGet_of_mem_nodup {α : Type} {l : List (String × α)} {k : String} {v : α}
    (hnd : (l.map Prod.fst).Nodup) (h : (k, v) ∈ l) : alGet l k = some v := by
  induction l with
  | nil => simp at h
  | cons p rest ih =>
    obtain ⟨pk, pv⟩ := p
    simp only [List.map_cons, List.nodup_cons] at hnd
    rcases List.mem_cons.mp h with heq | hmem
    · injection heq with h1 h2
      subst h1; subst h2
      simp [alGet]
    · have hne : pk ≠ k := by
        intro hcontra
        subst hcontra
        exact hnd.1 (List.mem_map.mpr ⟨(pk, v), hmem, rfl⟩)
      simp [alGet, hne, ih hnd.2 hmem]

theorem alGet_alUpsert_self (e : List (String × Node)) (k : String) (n : Node) :
    alGet (alUpsert e k n) k = some n := by
  induction e with
  | nil => simp [alUpsert, alGet]
  | cons p rest ih =>
    by_cases hk : p.1 = k
    · simp [alUpsert, hk, alGet]
    · simp [alUpsert, hk, alGet, ih]

theorem alGet_alUpsert_ne (e : List (String × Node)) (k k' : String) (n : Node)
    (h : k' ≠ k) : alGet (alUpsert e k n) k' = alGet e k' := by
  induction e with
  | nil => simp [alUpsert, alGet, Ne.symm h]
  | cons p rest ih =>
    simp only [alUpsert]
    by_cases hk : p.1 = k
    · rw [if_pos hk]
      have hp : p.1 ≠ k' := by rw [hk]; exact Ne.symm h
      simp only [alGet, if_neg hp]
    · rw [if_neg hk]
      simp only [alGet]
      by_cases hp : p.1 = k'
      · rw [if_pos hp, if_pos hp]
      · rw [if_neg hp, if_neg hp]
        exact ih

theorem mem_alUpsert {e : List (String × Node)} {k : String} {n : Node} {p : String × Node}
    (h : p ∈ alUpsert e k n) : p.2 = n ∨ p ∈ e := by
  induction e with
  | nil =>
    simp [alUpsert] at h
    simp [h]
  | cons q rest ih =>
    by_cases hq : q.1 = k
    · simp only [alUpsert, hq, if_pos rfl] at h
      rcases List.mem_cons.mp h with rfl | hm
      · left; rfl
      · right; exact List.mem_cons_of_mem _ hm
    · simp only [alUpsert, hq, if_neg hq] at h
      rcases List.mem_cons.mp h with rfl | hm
      · right; exact List.mem_cons_self _ _
      · rcases ih hm with h1 | h2
        · left; exact h1
        · right; exact List.mem_cons_of_mem _ h2

theorem WF_empty (d : Nat) : WF (d + 1) Node.empty = true := by
  simp [WF, Node.empty]

theorem wf_wild {d : Nat} {w : Option Node} {e : List (String × Node)} {c : Node}
    (hwf : WF (d + 1) (.parent w e) = true) (hc : w = some c) : WF d c = true := by
  subst hc
  simp only [WF, Bool.and_eq_true] at hwf
  exact hwf.1

theorem wf_exp {d : Nat} {w : Option Node} {e : List (String × Node)} {v : String} {c : Node}
    (hwf : WF (d + 1) (.parent w e) = true) (hc : alGet e v = some c) : WF d c = true := by
  simp only [WF, Bool.and_eq_true] at hwf
  exact List.all_eq_true.mp hwf.2 (v, c) (alGet_mem hc)

theorem wf_all_exp {d : Nat} {w : Option Node} {e : List (String × Node)}
    (hwf : WF (d + 1) (.parent w e) = true) :
    ∀ p ∈ e, WF d p.2 = true := by
  simp only [WF, Bool.and_eq_true] at hwf
  exact fun p hp => List.all_eq_true.mp hwf.2 p hp

theorem pre_parent {d : Nat} {n : Node} (h : preNode (d + 1) n) :
    ∃ w e, n = .parent w e := by
  rcases h with hwf | rfl
  · cases n with
    | leaf i => simp [WF] at hwf
    | parent w e => exact ⟨w, e, rfl⟩
  · exact ⟨none, [], rfl⟩

theorem empty_parts {w : Option Node} {e : List (String × Node)}
    (h : Node.parent w e = Node.empty) : w = none ∧ e = [] := by
  rw [Node.empty] at h
  injection h with h1 h2
  exact ⟨h1, h2⟩

theorem pre_wild {d : Nat} {w : Option Node} {e : List (String × Node)}
    (h : preNode (d + 1) (.parent w e)) : preNode d (w.getD Node.empty) := by
  rcases h with hwf | hemp
  · cases w with
    | none => exact Or.inr rfl
    | some c => exact Or.inl (wf_wild hwf rfl)
  · obtain ⟨rfl, _⟩ := empty_parts hemp
    exact Or.inr rfl

theorem pre_exp {d : Nat} {w : Option Node} {e : List (String × Node)} (v : String)
    (h : preNode (d + 1) (.parent w e)) : preNode d ((alGet e v).getD Node.empty) := by
  rcases h with hwf | hemp
  · cases hge : alGet e v with
    | none => exact Or.inr rfl
    | some c => exact Or.inl (wf_exp hwf hge)
  · obtain ⟨_, rfl⟩ := empty_parts hemp
    exact Or.inr rfl

theorem pre_wild_getD {d : Nat} {w : Option Node} {e : List (String × Node)}
    (h : preNode (d + 1) (.parent w e)) :
    ((w.map fun c => WF d c).getD true) = true := by
  cases w with
  | none => rfl
  | some c =>
    rcases h with hwf | hemp
    · simpa using wf_wild hwf rfl
    · obtain ⟨hw, _⟩ := empty_parts hemp
      simp at hw

theorem pre_all_exp {d : Nat} {w : Option Node} {e : List (String × Node)}
    (h : preNode (d + 1) (.parent w e)) : ∀ p ∈ e, WF d p.2 = true := by
  rcases h with hwf | hemp
  · exact wf_all_exp hwf
  · obtain ⟨_, rfl⟩ := empty_parts hemp
    intro p hp
    simp at hp

theorem insert_wf (r : Rule) (i : Nat) :
    ∀ (ks : List String) (n : Node), preNode ks.length n →
      ∃ n', insertRule n ks r i = some n' ∧ WF ks.length n' = true := by
  intro ks
  induction ks with
  | nil =>
    intro n _
    exact ⟨.leaf i, rfl, by simp [WF]⟩
  | cons k rest ih =>
    intro n hpre
    simp only [List.length_cons] at hpre ⊢
    obtain ⟨w, e, rfl⟩ := pre_parent hpre
    cases hrk : alGet r k with
    | none =>
      obtain ⟨w', hw', hwfw'⟩ := ih (w.getD Node.empty) (pre_wild hpre)
      refine ⟨.parent (some w') e, ?_, ?_⟩
      · simp [insertRule, hrk, hw']
      · simp only [WF, Bool.and_eq_true]
        exact ⟨hwfw', List.all_eq_true.mpr (pre_all_exp hpre)⟩
    | some v =>
      obtain ⟨c', hc', hwfc'⟩ := ih ((alGet e v).getD Node.empty) (pre_exp v hpre)
      refine ⟨.parent w (alUpsert e v c'), ?_, ?_⟩
      · simp [insertRule, hrk, hc']
      · simp only [WF, Bool.and_eq_true]
        refine ⟨pre_wild_getD hpre, List.all_eq_true.mpr ?_⟩
        intro p hp
        rcases mem_alUpsert hp with h1 | h2
        · rw [h1]; exact hwfc'
        · exact pre_all_exp hpre p h2

theorem find_total (input : Bag) :
    ∀ (ks : List String) (n : Node), WF ks.length n = true →
      ∃ r, find_min_leaf n ks input = some r := by
  intro ks
  induction ks with
  | nil =>
    intro n hwf
    cases n with
    | leaf i => exact ⟨some i, rfl⟩
    | parent w e => simp [WF] at hwf
  | cons k rest ih =>
    intro n hwf
    cases n with
    | leaf i => exact ⟨some i, rfl⟩
    | parent w e =>
      cases w with
      | none =>
        cases hv : alGet input k with
        | none => exact ⟨min_some none none, by simp [find_min_leaf, hv, combine]⟩
        | some v =>
          cases hc : alGet e v with
          | none => exact ⟨min_some none none, by simp [find_min_leaf, hv, hc, combine]⟩
          | some c =>
            obtain ⟨r2, hr2⟩ := ih c (wf_exp hwf hc)
            exact ⟨min_some none r2, by simp [find_min_leaf, hv, hc, hr2, combine]⟩
      | some cw =>
        obtain ⟨r1, hr1⟩ := ih cw (wf_wild hwf rfl)
        cases hv : alGet input k with
        | none => exact ⟨min_some r1 none, by simp [find_min_leaf, hv, hr1, combine]⟩
        | some v =>
          cases hc : alGet e v with
          | none => exact ⟨min_some r1 none, by simp [find_min_leaf, hv, hc, hr1, combine]⟩
          | some c =>
            obtain ⟨r2, hr2⟩ := ih c (wf_exp hwf hc)
            exact ⟨min_some r1 r2, by simp [find_min_leaf, hv, hc, hr1, hr2, combine]⟩

theorem find_min_leaf_empty_cons (k : String) (rest : List String) (input : Bag) :
    find_min_leaf Node.empty (k :: rest) input = some none := by
  simp only [Node.empty, find_min_leaf]
  cases alGet input k <;> simp [alGet, min_some, combine]

theorem find_min_leaf_empty_not_some (ks : List String) (input : Bag) (j : Nat) :
    find_min_leaf Node.empty ks input ≠ some (some j) := by
  cases ks with
  | nil => simp [find_min_leaf, Node.empty]
  | cons k rest => simp [find_min_leaf_empty_cons]

/-- The wildcard half of the search at a parent node (a name for the first
branch probed by `Node::find_min_leaf`). -/
def wildSearch (w : Option Node) (rest : List String) (input : Bag) : Option (Option Nat) :=
  match w with
  | none => some none
  | some c => find_min_leaf c rest input

/-- The explicit half of the search at a parent node (a name for the second
branch probed by `Node::find_min_leaf`). -/
def expSearch (e : List (String × Node)) (k : String) (rest : List String) (input : Bag) :
    Option (Option Nat) :=
  match alGet input k with
  | none => some none
  | some v =>
    match alGet e v with
    | none => some none
    | some c => find_min_leaf c rest input

theorem find_parent (w : Option Node) (e : List (String × Node)) (k : String)
    (rest : List String) (input : Bag) :
    find_min_leaf (.parent w e) (k :: rest) input =
      combine (wildSearch w rest input) (expSearch e k rest input) := rfl

theorem combine_eq_some {x y : Option (Option Nat)} {r : Option Nat}
    (h : combine x y = some r) :
    ∃ a b, x = some a ∧ y = some b ∧ min_some a b = r := by
  cases x with
  | none => simp [combine] at h
  | some a =>
    cases y with
    | none => simp [combine] at h
    | some b =>
      simp [combine] at h
      exact ⟨a, b, rfl, rfl, h⟩

theorem min_some_eq_some {a b : Option Nat} {j : Nat} (h : min_some a b = some j) :
    a = some j ∨ b = some j := by
  cases a with
  | none =>
    cases b with
    | none => simp [min_some] at h
    | some y => right; simpa [min_some] using h
  | some x =>
    cases b with
    | none => left; simpa [min_some] using h
    | some y =>
      simp [min_some] at h
      rcases Nat.le_total x y with hxy | hyx
      · left; rw [← h, Nat.min_eq_left hxy]
      · right; rw [← h, Nat.min_eq_right hyx]

theorem min_some_some_left (j : Nat) (b : Option Nat) : ∃ m, min_some (some j) b = some m := by
  cases b <;> exact ⟨_, rfl⟩

theorem min_some_some_right (a : Option Nat) (j : Nat) : ∃ m, min_some a (some j) = some m := by
  cases a <;> exact ⟨_, rfl⟩

theorem pre_wild_some {d : Nat} {w : Option Node} {e : List (String × Node)} {c : Node}
    (h : preNode (d + 1) (.parent w e)) (hc : w = some c) : WF d c = true := by
  rcases h with hwf | hemp
  · exact wf_wild hwf hc
  · obtain ⟨rfl, _⟩ := empty_parts hemp
    simp at hc

theorem pre_exp_some {d : Nat} {w : Option Node} {e : List (String × Node)} {v : String}
    {c : Node} (h : preNode (d + 1) (.parent w e)) (hc : alGet e v = some c) :
    WF d c = true := by
  rcases h with hwf | hemp
  · exact wf_exp hwf hc
  · obtain ⟨_, rfl⟩ := empty_parts hemp
    simp [alGet] at hc

theorem insert_follows_some (r : Rule) (input : Bag) :
    ∀ (ks : List String) (i : Nat) (n n' : Node), preNode ks.length n →
      insertRule n ks r i = some n' → follows ks r input = true →
      ∃ j, find_min_leaf n' ks input = some (some j) := by
  intro ks
  induction ks with
  | nil =>
    intro i n n' _ hins _
    simp only [insertRule, Option.some.injEq] at hins
    subst hins
    exact ⟨i, rfl⟩
  | cons k rest ih =>
    intro i n n' hpre hins hfol
    obtain ⟨w, e, rfl⟩ := pre_parent hpre
    simp only [follows, List.all_cons, Bool.and_eq_true] at hfol
    obtain ⟨hhead, htail⟩ := hfol
    have htail' : follows rest r input = true := htail
    cases hrk : alGet r k with
    | none =>
      simp only [insertRule, hrk] at hins
      cases hrec : insertRule (w.getD Node.empty) rest r i with
      | none => rw [hrec] at hins; simp at hins
      | some w' =>
        rw [hrec] at hins
        have hn' : Node.parent (some w') e = n' := by simpa using hins
        subst hn'
        obtain ⟨j, hj⟩ := ih i (w.getD Node.empty) w' (pre_wild hpre) hrec htail'
        rw [find_parent]
        have hw : wildSearch (some w') rest input = some (some j) := hj
        rw [hw]
        cases hv : alGet input k with
        | none => exact ⟨j, by simp [expSearch, hv, combine, min_some]⟩
        | some v =>
          cases hc : alGet e v with
          | none => exact ⟨j, by simp [expSearch, hv, hc, combine, min_some]⟩
          | some c =>
            obtain ⟨b, hb⟩ := find_total input rest c (pre_exp_some hpre hc)
            obtain ⟨m, hm⟩ := min_some_some_left j b
            exact ⟨m, by simp [expSearch, hv, hc, hb, combine, hm]⟩
    | some v =>
      rw [hrk] at hhead
      have hv : alGet input k = some v := by simpa using hhead
      simp only [insertRule, hrk] at hins
      cases hrec : insertRule ((alGet e v).getD Node.empty) rest r i with
      | none => rw [hrec] at hins; simp at hins
      | some c' =>
        rw [hrec] at hins
        have hn' : Node.parent w (alUpsert e v c') = n' := by simpa using hins
        subst hn'
        obtain ⟨j, hj⟩ := ih i ((alGet e v).getD Node.empty) c' (pre_exp v hpre) hrec htail'
        rw [find_parent]
        have he : expSearch (alUpsert e v c') k rest input = some (some j) := by
          simp [expSearch, hv, alGet_alUpsert_self, hj]
        rw [he]
        cases hw : w with
        | none => exact ⟨j, by simp [wildSearch, combine, min_some]⟩
        | some cw =>
          obtain ⟨a, ha⟩ := find_total input rest cw (pre_wild_some hpre hw)
          obtain ⟨m, hm⟩ := min_some_some_right a j
          exact ⟨m, by simp [wildSearch, ha, combine, hm]⟩

theorem insert_wf_result {r : Rule} {i : Nat} {ks : List String} {n n' : Node}
    (hpre : preNode ks.length n) (hins : insertRule n ks r i = some n') :
    WF ks.length n' = true := by
  obtain ⟨n'', h1, h2⟩ := insert_wf r i ks n hpre
  rw [hins] at h1
  injection h1 with h1
  subst h1
  exact h2

theorem insert_preserves_some (r : Rule) (input : Bag) :
    ∀ (ks : List String) (i : Nat) (n n' : Node) (j : Nat), preNode ks.length n →
      insertRule n ks r i = some n' →
      find_min_leaf n ks input = some (some j) →
      ∃ j', find_min_leaf n' ks input = some (some j') := by
  intro ks
  induction ks with
  | nil =>
    intro i n n' j _ hins _
    simp only [insertRule, Option.some.injEq] at hins
    subst hins
    exact ⟨i, rfl⟩
  | cons k rest ih =>
    intro i n n' j hpre hins hfind
    obtain ⟨w, e, rfl⟩ := pre_parent hpre
    rw [find_parent] at hfind
    obtain ⟨a, b, hwres, heres, hmin⟩ := combine_eq_some hfind
    cases hrk : alGet r k with
    | none =>
      simp only [insertRule, hrk] at hins
      cases hrec : insertRule (w.getD Node.empty) rest r i with
      | none => rw [hrec] at hins; simp at hins
      | some w' =>
        rw [hrec] at hins
        have hn' : Node.parent (some w') e = n' := by simpa using hins
        subst hn'
        rw [find_parent]
        rcases min_some_eq_some hmin with ha | hb
        · cases hw : w with
          | none =>
            rw [hw] at hwres
            simp only [wildSearch, Option.some.injEq] at hwres
            rw [← hwres] at ha
            simp at ha
          | some cw =>
            rw [hw] at hwres
            have hcw : find_min_leaf cw rest input = some (some j) := by
              rw [ha] at hwres
              exact hwres
            have hpre0 : preNode rest.length cw := by
              have := pre_wild hpre
              rwa [hw] at this
            have hrec0 : insertRule cw rest r i = some w' := by
              rw [hw] at hrec
              exact hrec
            obtain ⟨j', hj'⟩ := ih i cw w' j hpre0 hrec0 hcw
            obtain ⟨m, hm⟩ := min_some_some_left j' b
            refine ⟨m, ?_⟩
            have hws : wildSearch (some w') rest input = some (some j') := hj'
            rw [hws, heres]
            simp [combine, hm]
        · obtain ⟨a', ha'⟩ :=
            find_total input rest w' (insert_wf_result (pre_wild hpre) hrec)
          rw [hb] at heres
          obtain ⟨m, hm⟩ := min_some_some_right a' j
          refine ⟨m, ?_⟩
          have hws : wildSearch (some w') rest input = some a' := ha'
          rw [hws, heres]
          simp [combine, hm]
    | some v =>
      simp only [insertRule, hrk] at hins
      cases hrec : insertRule ((alGet e v).getD Node.empty) rest r i with
      | none => rw [hrec] at hins; simp at hins
      | some c' =>
        rw [hrec] at hins
        have hn' : Node.parent w (alUpsert e v c') = n' := by simpa using hins
        subst hn'
        rw [find_parent]
        rcases min_some_eq_some hmin with ha | hb
        · obtain ⟨b', hb'⟩ :
              ∃ b', expSearch (alUpsert e v c') k rest input = some b' := by
            cases hv : alGet input k with
            | none => exact ⟨none, by simp [expSearch, hv]⟩
            | some v0 =>
              by_cases hvv : v0 = v
              · subst hvv
                obtain ⟨b', hb'⟩ :=
                  find_total input rest c' (insert_wf_result (pre_exp v0 hpre) hrec)
                exact ⟨b', by simp [expSearch, hv, alGet_alUpsert_self, hb']⟩
              · cases hc : alGet e v0 with
                | none =>
                  exact ⟨none, by simp [expSearch, hv, alGet_alUpsert_ne e v v0 c' hvv, hc]⟩
                | some c0 =>
                  obtain ⟨b', hb'⟩ := find_total input rest c0 (pre_exp_some hpre hc)
                  exact ⟨b',
                    by simp [expSearch, hv, alGet_alUpsert_ne e v v0 c' hvv, hc, hb']⟩
          rw [ha] at hwres
          obtain ⟨m, hm⟩ := min_some_some_left j b'
          exact ⟨m, by rw [hwres, hb']; simp [combine, hm]⟩
        · rw [hb] at heres
          cases hv : alGet input k with
          | none => simp [expSearch, hv] at heres
          | some v0 =>
            cases hc : alGet e v0 with
            | none => simp [expSearch, hv, hc] at heres
            | some c0 =>
              have hc0find : find_min_leaf c0 rest input = some (some j) := by
                simpa [expSearch, hv, hc] using heres
              by_cases hvv : v0 = v
              · subst hvv
                have hgd : (alGet e v0).getD Node.empty = c0 := by rw [hc]; rfl
                have hpre0 : preNode rest.length c0 := by
                  have := pre_exp v0 hpre
                  rwa [hgd] at this
                have hrec0 : insertRule c0 rest r i = some c' := by rwa [hgd] at hrec
                obtain ⟨j', hj'⟩ := ih i c0 c' j hpre0 hrec0 hc0find
                obtain ⟨m, hm⟩ := min_some_some_right a j'
                exact ⟨m,
                  by rw [hwres]; simp [expSearch, hv, alGet_alUpsert_self, hj', combine, hm]⟩
              · obtain ⟨m, hm⟩ := min_some_some_right a j
                exact ⟨m,
                  by rw [hwres];
                     simp [expSearch, hv, alGet_alUpsert_ne e v v0 c' hvv, hc, hc0find,
                       combine, hm]⟩

theorem wildSearch_total (rest : List String) (input : Bag) {w : Option Node}
    {e : List (String × Node)} (hpre : preNode (rest.length + 1) (.parent w e)) :
    ∃ a, wildSearch w rest input = some a := by
  cases hw : w with
  | none => exact ⟨none, rfl⟩
  | some c =>
    obtain ⟨a, ha⟩ := find_total input rest c (pre_wild_some hpre hw)
    exact ⟨a, ha⟩

theorem expSearch_total (k : String) (rest : List String) (input : Bag) {w : Option Node}
    {e : List (String × Node)} (hpre : preNode (rest.length + 1) (.parent w e)) :
    ∃ b, expSearch e k rest input = some b := by
  cases hv : alGet input k with
  | none => exact ⟨none, by simp [expSearch, hv]⟩
  | some v =>
    cases hc : alGet e v with
    | none => exact ⟨none, by simp [expSearch, hv, hc]⟩
    | some c =>
      obtain ⟨b, hb⟩ := find_total input rest c (pre_exp_some hpre hc)
      exact ⟨b, by simp [expSearch, hv, hc, hb]⟩

theorem insert_sound (r : Rule) (input : Bag) :
    ∀ (ks : List String) (i : Nat) (n n' : Node) (j : Nat), preNode ks.length n →
      insertRule n ks r i = some n' →
      find_min_leaf n' ks input = some (some j) →
      (∃ j0, find_min_leaf n ks input = some (some j0)) ∨ follows ks r input = true := by
  intro ks
  induction ks with
  | nil =>
    intro i n n' j _ _ _
    right
    rfl
  | cons k rest ih =>
    intro i n n' j hpre hins hfind'
    obtain ⟨w, e, rfl⟩ := pre_parent hpre
    cases hrk : alGet r k with
    | none =>
      simp only [insertRule, hrk] at hins
      cases hrec : insertRule (w.getD Node.empty) rest r i with
      | none => rw [hrec] at hins; simp at hins
      | some w' =>
        rw [hrec] at hins
        have hn' : Node.parent (some w') e = n' := by simpa using hins
        subst hn'
        rw [find_parent] at hfind'
        obtain ⟨a, b, hwres, heres, hmin⟩ := combine_eq_some hfind'
        rcases min_some_eq_some hmin with ha | hb
        · have hw' : find_min_leaf w' rest input = some (some j) := by
            rw [ha] at hwres
            exact hwres
          rcases ih i (w.getD Node.empty) w' j (pre_wild hpre) hrec hw' with hold | hfol
          · obtain ⟨j0, hj0⟩ := hold
            cases hw : w with
            | none =>
              rw [hw] at hj0
              simp only [Option.getD_none] at hj0
              exact absurd hj0 (find_min_leaf_empty_not_some rest input j0)
            | some cw =>
              left
              rw [hw] at hj0
              simp only [Option.getD_some] at hj0
              obtain ⟨b0, hb0⟩ := expSearch_total k rest input hpre
              obtain ⟨m, hm⟩ := min_some_some_left j0 b0
              refine ⟨m, ?_⟩
              rw [find_parent]
              have hws : wildSearch (some cw) rest input = some (some j0) := hj0
              rw [hws, hb0]
              simp [combine, hm]
          · right
            simp only [follows, List.all_cons, Bool.and_eq_true]
            exact ⟨by simp [hrk], hfol⟩
        · left
          obtain ⟨a0, ha0⟩ := wildSearch_total rest input hpre
          rw [hb] at heres
          obtain ⟨m, hm⟩ := min_some_some_right a0 j
          refine ⟨m, ?_⟩
          rw [find_parent, ha0, heres]
          simp [combine, hm]
    | some v =>
      simp only [insertRule, hrk] at hins
      cases hrec : insertRule ((alGet e v).getD Node.empty) rest r i with
      | none => rw [hrec] at hins; simp at hins
      | some c' =>
        rw [hrec] at hins
        have hn' : Node.parent w (alUpsert e v c') = n' := by simpa using hins
        subst hn'
        rw [find_parent] at hfind'
        obtain ⟨a, b, hwres, heres, hmin⟩ := combine_eq_some hfind'
        rcases min_some_eq_some hmin with ha | hb
        · left
          rw [ha] at hwres
          obtain ⟨b0, hb0⟩ := expSearch_total k rest input hpre
          obtain ⟨m, hm⟩ := min_some_some_left j b0
          refine ⟨m, ?_⟩
          rw [find_parent, hwres, hb0]
          simp [combine, hm]
        · rw [hb] at heres
          cases hv : alGet input k with
          | none => simp [expSearch, hv] at heres
          | some v0 =>
            by_cases hvv : v0 = v
            · subst hvv
              have hc'find : find_min_leaf c' rest input = some (some j) := by
                simpa [expSearch, hv, alGet_alUpsert_self] using heres
              rcases ih i ((alGet e v0).getD Node.empty) c' j (pre_exp v0 hpre) hrec hc'find
                with hold | hfol
              · obtain ⟨j0, hj0⟩ := hold
                cases hc : alGet e v0 with
                | none =>
                  rw [hc] at hj0
                  simp only [Option.getD_none] at hj0
                  exact absurd hj0 (find_min_leaf_empty_not_some rest input j0)
                | some c0 =>
                  left
                  rw [hc] at hj0
                  simp only [Option.getD_some] at hj0
                  obtain ⟨a0, ha0⟩ := wildSearch_total rest input hpre
                  obtain ⟨m, hm⟩ := min_some_some_right a0 j0
                  refine ⟨m, ?_⟩
                  rw [find_parent, ha0]
                  simp [expSearch, hv, hc, hj0, combine, hm]
              · right
                simp only [follows, List.all_cons, Bool.and_eq_true]
                exact ⟨by simp [hrk, hv], hfol⟩
            · left
              cases hc : alGet e v0 with
              | none => simp [expSearch, hv, alGet_alUpsert_ne e v v0 c' hvv, hc] at heres
              | some c0 =>
                have hc0 : find_min_leaf c0 rest input = some (some j) := by
                  simpa [expSearch, hv, alGet_alUpsert_ne e v v0 c' hvv, hc] using heres
                obtain ⟨a0, ha0⟩ := wildSearch_total rest input hpre
                obtain ⟨m, hm⟩ := min_some_some_right a0 j
                refine ⟨m, ?_⟩
                rw [find_parent, ha0]
                simp [expSearch, hv, hc, hc0, combine, hm]

theorem insertAll_wf :
    ∀ (rules : List Rule) (ks : List String) (i : Nat) (n : Node), WF ks.length n = true →
      ∃ root, insertAll n ks i rules = some root ∧ WF ks.length root = true := by
  intro rules
  induction rules with
  | nil => intro ks i n hwf; exact ⟨n, rfl, hwf⟩
  | cons r rest ih =>
    intro ks i n hwf
    obtain ⟨n', hins, hwf'⟩ := insert_wf r i ks n (Or.inl hwf)
    obtain ⟨root, hall, hwfr⟩ := ih ks (i + 1) n' hwf'
    exact ⟨root, by simp [insertAll, hins, hall], hwfr⟩

theorem insertAll_complete (input : Bag) :
    ∀ (rules : List Rule) (ks : List String) (i : Nat) (n root : Node),
      WF ks.length n = true →
      insertAll n ks i rules = some root →
      ((∃ j0, find_min_leaf n ks input = some (some j0)) ∨
        ∃ r ∈ rules, follows ks r input = true) →
      ∃ j, find_min_leaf root ks input = some (some j) := by
  intro rules
  induction rules with
  | nil =>
    intro ks i n root hwf hall hyp
    simp only [insertAll, Option.some.injEq] at hall
    subst hall
    rcases hyp with h | ⟨r, hr, _⟩
    · exact h
    · simp at hr
  | cons r0 rest ih =>
    intro ks i n root hwf hall hyp
    simp only [insertAll] at hall
    cases hins : insertRule n ks r0 i with
    | none => rw [hins] at hall; simp at hall
    | some n' =>
      rw [hins] at hall
      have hall' : insertAll n' ks (i + 1) rest = some root := hall
      have hwf' : WF ks.length n' = true := insert_wf_result (Or.inl hwf) hins
      refine ih ks (i + 1) n' root hwf' hall' ?_
      rcases hyp with h | ⟨r, hr, hfol⟩
      · obtain ⟨j0, hj0⟩ := h
        left
        exact insert_preserves_some r0 input ks i n n' j0 (Or.inl hwf) hins hj0
      · rcases List.mem_cons.mp hr with rfl | hr'
        · left
          exact insert_follows_some r input ks i n n' (Or.inl hwf) hins hfol
        · right
          exact ⟨r, hr', hfol⟩

theorem insertAll_sound (input : Bag) :
    ∀ (rules : List Rule) (ks : List String) (i : Nat) (n root : Node),
      WF ks.length n = true →
      insertAll n ks i rules = some root →
      ∀ j, find_min_leaf root ks input = some (some j) →
        (∃ j0, find_min_leaf n ks input = some (some j0)) ∨
          ∃ r ∈ rules, follows ks r input = true := by
  intro rules
  induction rules with
  | nil =>
    intro ks i n root hwf hall j hfind
    simp only [insertAll, Option.some.injEq] at hall
    subst hall
    exact Or.inl ⟨j, hfind⟩
  | cons r0 rest ih =>
    intro ks i n root hwf hall j hfind
    simp only [insertAll] at hall
    cases hins : insertRule n ks r0 i with
    | none => rw [hins] at hall; simp at hall
    | some n' =>
      rw [hins] at hall
      have hall' : insertAll n' ks (i + 1) rest = some root := hall
      have hwf' : WF ks.length n' = true := insert_wf_result (Or.inl hwf) hins
      rcases ih ks (i + 1) n' root hwf' hall' j hfind with h1 | ⟨r, hr, hfol⟩
      · obtain ⟨j1, hj1⟩ := h1
        rcases insert_sound r0 input ks i n n' j1 (Or.inl hwf) hins hj1 with h2 | hfol0
        · exact Or.inl h2
        · exact Or.inr ⟨r0, List.mem_cons_self _ _, hfol0⟩
      · exact Or.inr ⟨r, List.mem_cons_of_mem _ hr, hfol⟩

theorem rule_matches_iff_follows {rule input : Bag} {ks : List String}
    (hsub : ∀ k ∈ rule.map Prod.fst, k ∈ ks) (hnd : (rule.map Prod.fst).Nodup) :
    rule_matches input rule = true ↔ follows ks rule input = true := by
  constructor
  · intro hm
    simp only [follows, List.all_eq_true]
    intro k hk
    cases hrk : alGet rule k with
    | none => simp [hrk]
    | some v =>
      have hmem : (k, v) ∈ rule := alGet_mem hrk
      have hval := List.all_eq_true.mp hm (k, v) hmem
      simp only at hval
      simp [hrk, hval]
  · intro hf
    simp only [rule_matches, List.all_eq_true]
    intro p hp
    obtain ⟨pk, pv⟩ := p
    have hk : pk ∈ rule.map Prod.fst := List.mem_map.mpr ⟨(pk, pv), hp, rfl⟩
    have hget : alGet rule pk = some pv := alGet_of_mem_nodup hnd hp
    have hval := List.all_eq_true.mp hf pk (hsub pk hk)
    simp only [hget] at hval
    simpa using hval

theorem findFrom_none_iff (input : Bag) :
    ∀ (rules : List Rule) (i : Nat),
      findFrom input i rules = none ↔ ∀ r ∈ rules, rule_matches input r = false := by
  intro rules
  induction rules with
  | nil => intro i; simp [findFrom]
  | cons r rest ih =>
    intro i
    by_cases hm : rule_matches input r = true
    · simp [findFrom, hm]
    · simp only [Bool.not_eq_true] at hm
      simp [findFrom, hm, ih (i + 1)]

theorem findFrom_some (input : Bag) :
    ∀ (rules : List Rule) (i j : Nat), findFrom input i rules = some j →
      ∃ m, j = i + m ∧ (∃ r, rules[m]? = some r ∧ rule_matches input r = true) ∧
        ∀ m', m' < m → ∀ r', rules[m']? = some r' → rule_matches input r' = false := by
  intro rules
  induction rules with
  | nil => intro i j h; simp [findFrom] at h
  | cons r rest ih =>
    intro i j h
    by_cases hm : rule_matches input r = true
    · simp [findFrom, hm] at h
      refine ⟨0, by omega, ⟨r, by simp, hm⟩, ?_⟩
      intro m' hm' r' _
      omega
    · simp only [Bool.not_eq_true] at hm
      rw [findFrom, if_neg (by simp [hm])] at h
      obtain ⟨m, hj, hex, hmin⟩ := ih (i + 1) j h
      refine ⟨m + 1, by omega, ?_, ?_⟩
      · obtain ⟨r0, hr0, hm0⟩ := hex
        exact ⟨r0, by simpa using hr0, hm0⟩
      · intro m' hm' r' hr'
        cases m' with
        | zero =>
          simp at hr'
          rw [← hr']
          exact hm
        | succ m'' =>
          exact hmin m'' (by omega) r' (by simpa using hr')

theorem findFrom_complete (input : Bag) :
    ∀ (rules : List Rule) (i m : Nat) (r : Rule), rules[m]? = some r →
      rule_matches input r = true →
      (∀ m', m' < m → ∀ r', rules[m']? = some r' → rule_matches input r' = false) →
      findFrom input i rules = some (i + m) := by
  intro rules
  induction rules with
  | nil => intro i m r h _ _; simp at h
  | cons r0 rest ih =>
    intro i m r hr hm hmin
    cases m with
    | zero =>
      simp at hr
      rw [← hr] at hm
      simp [findFrom, hm]
    | succ m' =>
      have h0 : rule_matches input r0 = false := hmin 0 (by omega) r0 (by simp)
      rw [findFrom, if_neg (by simp [h0])]
      have hrec := ih (i + 1) m' r (by simpa using hr) hm
        (fun m'' hlt r' hr' => hmin (m'' + 1) (by omega) r' (by simpa using hr'))
      rw [show i + (m' + 1) = (i + 1) + m' by omega]
      exact hrec

theorem find_min_leaf_leaf (i : Nat) (ks : List String) (input : Bag) :
    find_min_leaf (.leaf i) ks input = some (some i) := by
  cases ks <;> rfl

theorem new_spec (rules : List Rule) :
    ∃ t, LowCardinalityTree.new rules = some t ∧ t.keys = keyUniverse rules ∧
      ((keyUniverse rules = [] ∧
          t.root = if rules.isEmpty then none else some (.leaf 0)) ∨
        (keyUniverse rules ≠ [] ∧ ∃ root, t.root = some root ∧
          WF (keyUniverse rules).length root = true ∧
          insertAll Node.empty (keyUniverse rules) 0 rules = some root)) := by
  cases hk : keyUniverse rules with
  | nil =>
    refine ⟨⟨[], if rules.isEmpty then none else some (.leaf 0)⟩, ?_, ?_, ?_⟩
    · simp [LowCardinalityTree.new, hk]
    · simp
    · left
      exact ⟨rfl, rfl⟩
  | cons k rest =>
    obtain ⟨root, hall, hwf⟩ :=
      insertAll_wf rules (k :: rest) 0 Node.empty (WF_empty rest.length)
    refine ⟨⟨k :: rest, some root⟩, ?_, rfl, Or.inr ⟨by simp, root, rfl, hwf, hall⟩⟩
    simp [LowCardinalityTree.new, hk, hall]

theorem tree_find_some_iff {rules : List Rule} {input : Bag} {t : LowCardinalityTree}
    (hnd : ∀ r ∈ rules, (r.map Prod.fst).Nodup)
    (ht : LowCardinalityTree.new rules = some t) :
    (∃ j, t.find input = some (some j)) ↔ ∃ r ∈ rules, rule_matches input r = true := by
  obtain ⟨t', ht', hkeys, hcase⟩ := new_spec rules
  rw [ht] at ht'
  injection ht' with ht'
  subst ht'
  rcases hcase with ⟨hk, hroot⟩ | ⟨hk, root, hroot, hwf, hall⟩
  · cases hrules : rules with
    | nil =>
      subst hrules
      simp only [List.isEmpty_nil, if_pos rfl] at hroot
      constructor
      · rintro ⟨j, hj⟩
        simp [LowCardinalityTree.find, hroot] at hj
      · rintro ⟨r, hr, _⟩
        simp at hr
    | cons r0 rs =>
      subst hrules
      have hroot' : t.root = some (.leaf 0) := by simpa using hroot
      constructor
      · rintro ⟨j, hj⟩
        have hr0 : r0 ∈ r0 :: rs := List.mem_cons_self _ _
        have hnil : r0 = [] := rule_eq_nil_of_keyUniverse_nil hk r0 hr0
        exact ⟨r0, hr0, by rw [hnil]; rfl⟩
      · rintro ⟨r, hr, hm⟩
        exact ⟨0, by simp [LowCardinalityTree.find, hroot', find_min_leaf_leaf]⟩
  · have hwfe : WF (keyUniverse rules).length Node.empty = true := by
      obtain ⟨k0, ks0, hks⟩ := List.exists_cons_of_ne_nil hk
      rw [hks]
      exact WF_empty ks0.length
    constructor
    · rintro ⟨j, hj⟩
      have hfind : find_min_leaf root (keyUniverse rules) input = some (some j) := by
        rw [LowCardinalityTree.find, hroot, hkeys] at hj
        exact hj
      rcases insertAll_sound input rules (keyUniverse rules) 0 Node.empty root hwfe hall j
          hfind with ⟨j0, hj0⟩ | ⟨r, hr, hfol⟩
      · exact absurd hj0 (find_min_leaf_empty_not_some _ input j0)
      · refine ⟨r, hr, ?_⟩
        exact (rule_matches_iff_follows (fun k hk' => rule_key_mem_keyUniverse hr hk')
          (hnd r hr)).mpr hfol
    · rintro ⟨r, hr, hm⟩
      have hfol : follows (keyUniverse rules) r input = true :=
        (rule_matches_iff_follows (fun k hk' => rule_key_mem_keyUniverse hr hk')
          (hnd r hr)).mp hm
      obtain ⟨j, hj⟩ := insertAll_complete input rules (keyUniverse rules) 0 Node.empty root
        hwfe hall (Or.inr ⟨r, hr, hfol⟩)
      refine ⟨j, ?_⟩
      rw [LowCardinalityTree.find, hroot, hkeys]
      exact hj

theorem tree_find_total (rules : List Rule) (input : Bag) {t : LowCardinalityTree}
    (ht : LowCardinalityTree.new rules = some t) :
    ∃ res, t.find input = some res := by
  obtain ⟨t', ht', hkeys, hcase⟩ := new_spec rules
  rw [ht] at ht'
  injection ht' with ht'
  subst ht'
  rcases hcase with ⟨hk, hroot⟩ | ⟨hk, root, hroot, hwf, hall⟩
  · by_cases he : rules.isEmpty = true
    · exact ⟨none, by simp [LowCardinalityTree.find, hroot, he]⟩
    · simp only [Bool.not_eq_true] at he
      exact ⟨some 0, by simp [LowCardinalityTree.find, hroot, he, find_min_leaf_leaf]⟩
  · have hwf' : WF t.keys.length root = true := by rw [hkeys]; exact hwf
    obtain ⟨res, hres⟩ := find_total input t.keys root hwf'
    refine ⟨res, ?_⟩
    rw [LowCardinalityTree.find, hroot]
    exact hres

/-- C1: the claimed equivalence "for every rule list R and every input bag I,
`LowCardinalityTree::find` returns the same `Option<usize>` as
`LinearScan::find`" fails on the code.  With two rules carrying the identical
constraint map `a ↦ 1` and the input `a ↦ 1`, the linear scan returns
`Some(0)` while the tree returns `Some(1)`: the second rule's leaf overwrote
the first rule's leaf on the shared path during construction. -/
theorem c1_equivalence_bug :
    (LinearScan.new [[("a", "1")], [("a", "1")]]).find [("a", "1")] = some 0 ∧
    (LowCardinalityTree.new [[("a", "1")], [("a", "1")]]).map
      (fun t => t.find [("a", "1")]) = some (some (some 1)) := by
  constructor
  · decide
  · decide

/-- C2: the claim that `LowCardinalityTree` construction keeps the lower index
when two rules project to the same root-to-leaf path fails on the code.  The
construction loop ends every rule's descent with an unconditional
`*cur = Node::Leaf(rule_idx)`, so for the rule list
`[{a ↦ 1}, {a ↦ 1}]` the shared leaf holds index 1, not the lower index 0:
the whole tree evaluates to a single explicit child `"1" ↦ Leaf 1`. -/
theorem c2_collision_overwrites :
    LowCardinalityTree.new [[("a", "1")], [("a", "1")]] =
      some ⟨["a"], some (.parent none [("1", .leaf 1)])⟩ := rfl

/-- C3: the claimed lowest-index-wins property ("if `find` returns `Some(i)`
then rule `i` is satisfied and no rule `j < i` is satisfied") fails on the
code for `LowCardinalityTree`.  On the rule list `[{a ↦ 1}, {a ↦ 1}]` and the
input `a ↦ 1`, the tree returns `Some(1)` even though rule 0 — the very same
constraint map — is fully satisfied by the input and `0 < 1`. -/
theorem c3_lowest_index_bug :
    (LowCardinalityTree.new [[("a", "1")], [("a", "1")]]).map
      (fun t => t.find [("a", "1")]) = some (some (some 1)) ∧
    rule_matches [("a", "1")] [("a", "1")] = true ∧ (0 : Nat) < 1 := by
  refine ⟨by decide, by decide, by decide⟩

/-- C4: `find` returns no-match exactly when no rule's constraints are all
present and equal in the input, for both matchers.  For `LinearScan` this is
the scan loop running dry; for `LowCardinalityTree` the query returns
`Some(j)` for some `j` precisely when a reachable leaf exists, which happens
precisely when some rule's projected path accepts the input.  Rule maps carry
the `BTreeMap` no-duplicate-keys invariant as a hypothesis. -/
theorem c4_no_match_iff (rules : List Rule) (input : Bag)
    (hnd : ∀ r ∈ rules, (r.map Prod.fst).Nodup) :
    ((LinearScan.new rules).find input = none ↔
      ∀ r ∈ rules, rule_matches input r = false) ∧
    ∀ t, LowCardinalityTree.new rules = some t →
      (t.find input = some none ↔ ∀ r ∈ rules, rule_matches input r = false) := by
  constructor
  · simpa [LinearScan.find, LinearScan.new] using findFrom_none_iff input rules 0
  · intro t ht
    constructor
    · intro hnone r hr
      by_contra hm
      simp only [Bool.not_eq_false] at hm
      obtain ⟨j, hj⟩ := (tree_find_some_iff hnd ht).mpr ⟨r, hr, hm⟩
      rw [hnone] at hj
      simp at hj
    · intro hno
      obtain ⟨res, hres⟩ := tree_find_total rules input ht
      cases res with
      | none => exact hres
      | some j =>
        obtain ⟨r, hr, hm⟩ := (tree_find_some_iff hnd ht).mp ⟨j, hres⟩
        rw [hno r hr] at hm
        simp at hm

theorem c4_no_match_iff_witness :
    (∀ r ∈ [[("a", "1")]], (r.map Prod.fst).Nodup) ∧
    (((LinearScan.new [[("a", "1")]]).find [] = none ↔
        ∀ r ∈ [[("a", "1")]], rule_matches [] r = false) ∧
      ∀ t, LowCardinalityTree.new [[("a", "1")]] = some t →
        (t.find [] = some none ↔ ∀ r ∈ [[("a", "1")]], rule_matches [] r = false)) :=
  ⟨by decide, c4_no_match_iff [[("a", "1")]] [] (by decide)⟩

/-- C5: the claim that the lowest-index empty-constraint rule is returned when
no earlier rule matches fails on the code for `LowCardinalityTree`.  On the
rule list `[{a ↦ 1}, {}, {}]` with input `a ↦ 2`, rule 0 is not satisfied and
rule 1 is the lowest-index unconstrained rule, so the claim demands `Some(1)`
(and `LinearScan` indeed returns it), but the tree returns `Some(2)`: rule 2
overwrote rule 1's leaf on the all-wildcard path. -/
theorem c5_unconstrained_bug :
    rule_matches [("a", "2")] [("a", "1")] = false ∧
    (LinearScan.new [[("a", "1")], [], []]).find [("a", "2")] = some 1 ∧
    (LowCardinalityTree.new [[("a", "1")], [], []]).map
      (fun t => t.find [("a", "2")]) = some (some (some 2)) := by
  refine ⟨by decide, by decide, by decide⟩

/-- C6: `LinearScan::find` returns `Some(i)` exactly for the smallest index
`i` whose rule has every constraint present and equal in the input, scanning
rules in list order, and `None` when no rule qualifies. -/
theorem c6_linear_scan_first_match (rules : List Rule) (input : Bag) :
    (∀ i, (LinearScan.new rules).find input = some i →
      (∃ r, rules[i]? = some r ∧ rule_matches input r = true) ∧
        ∀ j, j < i → ∀ r, rules[j]? = some r → rule_matches input r = false) ∧
    (∀ i r, rules[i]? = some r → rule_matches input r = true →
      (∀ j, j < i → ∀ r', rules[j]? = some r' → rule_matches input r' = false) →
      (LinearScan.new rules).find input = some i) ∧
    ((LinearScan.new rules).find input = none ↔
      ∀ r ∈ rules, rule_matches input r = false) := by
  refine ⟨?_, ?_, ?_⟩
  · intro i hi
    have hi' : findFrom input 0 rules = some i := hi
    obtain ⟨m, hm, hex, hmin⟩ := findFrom_some input rules 0 i hi'
    have hmi : m = i := by omega
    subst hmi
    exact ⟨hex, hmin⟩
  · intro i r hr hm hmin
    have := findFrom_complete input rules 0 i r hr hm hmin
    simpa [LinearScan.find, LinearScan.new] using this
  · simpa [LinearScan.find, LinearScan.new] using findFrom_none_iff input rules 0

theorem c6_linear_scan_first_match_witness :
    (∃ r, [[("a", "1")], ([] : Bag)][1]? = some r ∧ rule_matches [] r = true) ∧
      ∀ j, j < 1 → ∀ r, [[("a", "1")], ([] : Bag)][j]? = some r →
        rule_matches [] r = false :=
  (c6_linear_scan_first_match [[("a", "1")], []] []).1 1 (by decide)

/-- C7: on the empty rule list both matchers answer no-match for every input:
the linear scan has nothing to check, and the tree is built with an absent
root, which `LowCardinalityTree::find` short-circuits to `None`. -/
theorem c7_empty_rules_no_match (input : Bag) :
    (LinearScan.new []).find input = none ∧
    ∃ t, LowCardinalityTree.new [] = some t ∧ t.find input = some none := by
  exact ⟨rfl, ⟨⟨[], none⟩, rfl, rfl⟩⟩

/-- C8: in a tree built from a rule list whose key universe is non-empty,
the root exists and satisfies the depth invariant `WF K`: every leaf sits at
depth exactly `K = t.keys.length` and every node above depth `K` is a parent
node. -/
theorem c8_depth_invariant (rules : List Rule) (t : LowCardinalityTree)
    (ht : LowCardinalityTree.new rules = some t) (hk : t.keys ≠ []) :
    ∃ root, t.root = some root ∧ WF t.keys.length root = true := by
  obtain ⟨t', ht', hkeys, hcase⟩ := new_spec rules
  rw [ht] at ht'
  injection ht' with ht'
  subst ht'
  rcases hcase with ⟨hke, hroot⟩ | ⟨hke, root, hroot, hwf, hall⟩
  · rw [hkeys] at hk
    exact absurd hke hk
  · exact ⟨root, hroot, by rw [hkeys]; exact hwf⟩

theorem c8_depth_invariant_witness :
    ∃ root,
      (LowCardinalityTree.mk ["a"] (some (.parent none [("1", .leaf 0)]))).root = some root ∧
      WF (LowCardinalityTree.mk ["a"] (some (.parent none [("1", .leaf 0)]))).keys.length
        root = true :=
  c8_depth_invariant [[("a", "1")]] ⟨["a"], some (.parent none [("1", .leaf 0)])⟩ rfl
    (by simp)

/-- C9: when the key universe is empty but the rule list is not, the tree
collapses to the single leaf `Leaf(0)` and `find` answers `Some(0)` on every
input, so the degenerate K = 0 collapse does preserve lowest-index priority
among fully-unconstrained rules. -/
theorem c9_degenerate_collapse (rules : List Rule) (input : Bag)
    (hk : keyUniverse rules = []) (hne : rules ≠ []) :
    ∃ t, LowCardinalityTree.new rules = some t ∧ t.find input = some (some 0) := by
  have hie : rules.isEmpty = false := by
    cases rules with
    | nil => exact absurd rfl hne
    | cons r rs => rfl
  refine ⟨⟨[], some (.leaf 0)⟩, ?_, rfl⟩
  simp [LowCardinalityTree.new, hk, hie]

theorem c9_degenerate_collapse_witness :
    keyUniverse [([] : Bag), []] = [] ∧ ([([] : Bag), []] ≠ ([] : List Rule)) ∧
      ∃ t, LowCardinalityTree.new [([] : Bag), []] = some t ∧
        t.find [("x", "y")] = some (some 0) :=
  ⟨rfl, by simp, c9_degenerate_collapse [[], []] [("x", "y")] rfl (by simp)⟩

/-- C10: construction and query are total for every rule list and input: the
embedded `unreachable!("no interior leaves")` arm (a `none` result of
`LowCardinalityTree.new`) and the embedded `keys[0]` out-of-bounds panic at a
parent node (a `none` result of `find`) are never reached. -/
theorem c10_total (rules : List Rule) (input : Bag) :
    ∃ t, LowCardinalityTree.new rules = some t ∧ ∃ res, t.find input = some res := by
  obtain ⟨t, ht, _, _⟩ := new_spec rules
  exact ⟨t, ht, tree_find_total rules input ht⟩
